import Mathlib

/-!
# Verification of `fractal_utils` (utils-rs): `Amount` and `WalletAddress`

A shallow embedding of the two value-type codecs of the crate:

* `src/amount.rs` — the fixed-point currency `Amount` (u64 thousandths):
  its `Display` implementation (precision and zero-width padding) and its
  `FromStr` implementation (decimal parsing with round-half-up).
* `src/wallet_address.rs` — the checksummed `WalletAddress` (7 raw bytes,
  2-byte XOR-chain checksum, base-58 text form tagged with `"fr"`).

Machine integers (`u64`, `u8`) are embedded as `Nat`; wherever the Rust
code can overflow, the reduction `% 2 ^ 64` is written explicitly
(release-mode wrapping semantics).  Rust `panic` sites (slice/index out of
bounds, division by zero) are embedded as an explicit `fatal` outcome of
the parsing functions, distinct from the recoverable error outcomes.

The base-58 codec comes from the external crate `rust_base58`; it is
embedded as the standard base-58 algorithm that crate implements
(alphabet `123456789ABCDEFGHJKLMNPQRSTUVWXYZabcdefghijkmnopqrstuvwxyz`,
one leading `'1'` per leading zero byte, remaining bytes as a big-endian
base-58 integer).
-/

namespace Fractal

/-! ## Digit-string machinery shared by both codecs -/

/-- Little-endian base-`b` digits of `n`, computed with explicit fuel so the
kernel can evaluate it.  Agrees with `Nat.digits b` for `2 ≤ b` and
sufficient fuel (`digitsLE_eq_digits`). -/
def digitsLEAux (b : Nat) : Nat → Nat → List Nat
  | 0, _ => []
  | fuel + 1, n => if n = 0 then [] else n % b :: digitsLEAux b fuel (n / b)

/-- Little-endian base-`b` digits of `n`. -/
def digitsLE (b n : Nat) : List Nat := digitsLEAux b n n

/-- Big-endian base-`b` digits of `n` (empty for `n = 0`). -/
def digitsBE (b n : Nat) : List Nat := (digitsLE b n).reverse

/-- Value of a little-endian digit list in base `b`. -/
def valueLE (b : Nat) : List Nat → Nat
  | [] => 0
  | d :: r => d + b * valueLE b r

/-- Value of a big-endian digit list in base `b`. -/
def valueBE (b : Nat) (l : List Nat) : Nat := valueLE b l.reverse

theorem digitsLEAux_eq_digits (b : Nat) (hb : 2 ≤ b) :
    ∀ fuel n, n ≤ fuel → digitsLEAux b fuel n = Nat.digits b n := by
  intro fuel
  induction fuel with
  | zero =>
    intro n hn
    interval_cases n
    simp [digitsLEAux]
  | succ fuel ih =>
    intro n hn
    by_cases h0 : n = 0
    · simp [digitsLEAux, h0]
    · rw [digitsLEAux, if_neg h0, Nat.digits_def' hb (Nat.pos_of_ne_zero h0), ih]
      have hdiv : n / b < n := Nat.div_lt_self (Nat.pos_of_ne_zero h0) hb
      omega

theorem digitsLE_eq_digits (b n : Nat) (hb : 2 ≤ b) :
    digitsLE b n = Nat.digits b n :=
  digitsLEAux_eq_digits b hb n n le_rfl

theorem valueLE_eq_ofDigits (b : Nat) (l : List Nat) :
    valueLE b l = Nat.ofDigits b l := by
  induction l with
  | nil => simp [valueLE]
  | cons d r ih => rw [valueLE, Nat.ofDigits_cons, ih]

theorem valueLE_digitsLE (b n : Nat) (hb : 2 ≤ b) : valueLE b (digitsLE b n) = n := by
  rw [valueLE_eq_ofDigits, digitsLE_eq_digits b n hb, Nat.ofDigits_digits]

theorem valueBE_digitsBE (b n : Nat) (hb : 2 ≤ b) : valueBE b (digitsBE b n) = n := by
  rw [valueBE, digitsBE, List.reverse_reverse, valueLE_digitsLE b n hb]

theorem digitsLE_lt_base (b n : Nat) (hb : 2 ≤ b) :
    ∀ d ∈ digitsLE b n, d < b := by
  intro d hd
  rw [digitsLE_eq_digits b n hb] at hd
  exact Nat.digits_lt_base hb hd

theorem digitsBE_lt_base (b n : Nat) (hb : 2 ≤ b) :
    ∀ d ∈ digitsBE b n, d < b := by
  intro d hd
  exact digitsLE_lt_base b n hb d (List.mem_reverse.mp hd)

theorem digitsBE_head_ne_zero (b n : Nat) (hb : 2 ≤ b) (hn : n ≠ 0) :
    ∀ d, (digitsBE b n).head? = some d → d ≠ 0 := by
  intro d hd
  have hne : Nat.digits b n ≠ [] := Nat.digits_ne_nil_iff_ne_zero.mpr hn
  have hlast := Nat.getLast_digit_ne_zero b hn
  rw [digitsBE, digitsLE_eq_digits b n hb] at hd
  rw [List.head?_reverse] at hd
  rw [List.getLast?_eq_getLast _ hne, Option.some_inj] at hd
  rw [← hd]
  exact hlast

theorem digitsBE_eq_nil_iff (b n : Nat) (hb : 2 ≤ b) :
    digitsBE b n = [] ↔ n = 0 := by
  rw [digitsBE, List.reverse_eq_nil_iff, digitsLE_eq_digits b n hb]
  exact not_not.mp (not_not_intro Nat.digits_eq_nil_iff_eq_zero)

/-- Value of a big-endian digit list is unchanged by a prefix of zero digits. -/
theorem ofDigits_replicate_zero (b k : Nat) :
    Nat.ofDigits b (List.replicate k 0) = 0 := by
  induction k with
  | zero => simp
  | succ k ih => rw [List.replicate_succ, Nat.ofDigits_cons, ih]; simp

theorem valueBE_replicate_zero_append (b k : Nat) (l : List Nat) :
    valueBE b (List.replicate k 0 ++ l) = valueBE b l := by
  simp only [valueBE, valueLE_eq_ofDigits, List.reverse_append, List.reverse_replicate]
  rw [Nat.ofDigits_append, ofDigits_replicate_zero]
  simp

/-- Appending `k` zero digits on the big-endian right multiplies by `b ^ k`. -/
theorem valueBE_append_replicate_zero (b k : Nat) (l : List Nat) :
    valueBE b (l ++ List.replicate k 0) = valueBE b l * b ^ k := by
  simp only [valueBE, valueLE_eq_ofDigits, List.reverse_append, List.reverse_replicate]
  rw [Nat.ofDigits_append, ofDigits_replicate_zero, List.length_replicate]
  ring

/-- A big-endian digit list with nonzero head is recovered from its value. -/
theorem digitsBE_valueBE (b : Nat) (hb : 2 ≤ b) (l : List Nat)
    (hlt : ∀ d ∈ l, d < b) (hhead : ∀ d, l.head? = some d → d ≠ 0) :
    digitsBE b (valueBE b l) = l := by
  rw [digitsBE, valueBE, digitsLE_eq_digits _ _ hb, valueLE_eq_ofDigits]
  rw [Nat.digits_ofDigits b hb l.reverse
    (by intro x hx; exact hlt x (List.mem_reverse.mp hx))
    (by
      intro hne hzero
      have hh : l.reverse.getLast? = some 0 := by
        rw [List.getLast?_eq_getLast _ hne, hzero]
      rw [List.getLast?_reverse] at hh
      exact hhead 0 hh rfl)]
  exact List.reverse_reverse l

/-! ## Decimal strings: Rust's `format!("{}", n)` and `str::parse::<u64>()` -/

/-- The character of a single decimal digit (`0 ≤ d ≤ 9`). -/
def decChar (d : Nat) : Char := Char.ofNat (48 + d)

/-- Big-endian decimal digits of `n`, with `[0]` (not `[]`) for `n = 0`:
the digit list printed by Rust's `format!("{}", n)`. -/
def decDigits (n : Nat) : List Nat := if n = 0 then [0] else digitsBE 10 n

/-- The string (as a char list) printed by Rust's `format!("{}", n)` for `n : u64`. -/
def natChars (n : Nat) : List Char := (decDigits n).map decChar

/-- Rust's `char::to_digit(10)`. -/
def charToDigit (c : Char) : Option Nat :=
  if 48 ≤ c.toNat ∧ c.toNat ≤ 57 then some (c.toNat - 48) else none

/-- Convert a char list to its decimal digit values; `none` as soon as a
character is not an ASCII decimal digit. -/
def charsToDigits : List Char → Option (List Nat)
  | [] => some []
  | c :: cs =>
    match charToDigit c, charsToDigits cs with
    | some d, some ds => some (d :: ds)
    | _, _ => none

/-- `u64::MAX`. -/
def U64MAX : Nat := 2 ^ 64 - 1

/-- `2 ^ 64`, the wrap-around modulus of `u64` arithmetic. -/
def U64MOD : Nat := 2 ^ 64

/-- The all-digits branch of Rust `u64::from_str` (after the optional sign):
requires a nonempty run of decimal digits whose value fits in `u64`. -/
def parseU64Digits (t : List Char) : Option Nat :=
  match t with
  | [] => none
  | _ =>
    match charsToDigits t with
    | some ds => if valueBE 10 ds ≤ U64MAX then some (valueBE 10 ds) else none
    | none => none

/-- The `'-'` branch of Rust `u64::from_str`: each digit is subtracted with
`checked_sub` from an accumulator that starts at 0, so the parse succeeds
(with value 0) exactly when every digit is 0. -/
def parseU64Neg (t : List Char) : Option Nat :=
  match t with
  | [] => none
  | _ =>
    match charsToDigits t with
    | some ds => if ds.all (· = 0) then some 0 else none
    | none => none

/-- Rust's `str::parse::<u64>()` (`u64::from_str`): optional `'+'`/`'-'`
sign, then a nonempty run of ASCII decimal digits; overflow fails. -/
def parseU64 (s : List Char) : Option Nat :=
  match s with
  | [] => none
  | c :: r =>
    if c = '+' then parseU64Digits r
    else if c = '-' then parseU64Neg r
    else parseU64Digits s

/-! ## The `Amount` type (`src/amount.rs`) -/

/-- `Amount`: a currency amount stored as its `u64` internal representation
in thousandths (`Amount { value: u64 }`). -/
structure Amount where
  value : Nat
deriving DecidableEq, Repr

/-- `Amount::from_repr`. -/
def Amount.from_repr (v : Nat) : Amount := ⟨v⟩

/-- `Amount::get_repr`. -/
def Amount.get_repr (a : Amount) : Nat := a.value

/-- `Amount::min_value()` (`u64::MIN` thousandths). -/
def Amount.min_value : Amount := ⟨0⟩

/-- `Amount::max_value()` (`u64::MAX` thousandths). -/
def Amount.max_value : Amount := ⟨U64MAX⟩

/-- The error cases of `AmountParseError`, one per distinct message built in
`<Amount as FromStr>::from_str`. -/
inductive AmountErr
  /-- "an amount can only have one period to separate units and decimals" -/
  | multipleSeps
  /-- "the units part it is not a valid u64 amount" (dotted branch) and
  "it is not a valid u64 number" (dot-free branch) -/
  | invalidUnits
  /-- "it is too big, the maximum amount is …" for the units part -/
  | unitsTooBig
  /-- "no decimals were found after the decimal separator" -/
  | emptyDecimals
  /-- "the decimal part is not a valid u64 number" -/
  | invalidDecimals
  /-- "it is too big, the maximum amount is …" for the final sum -/
  | sumTooBig
deriving DecidableEq, Repr

/-- Outcome of running `Amount::from_str`: a parsed amount, a recoverable
`AmountParseError`, or a Rust panic (`fatal`). -/
inductive AmountResult
  | ok (a : Amount)
  | err (e : AmountErr)
  | fatal
deriving DecidableEq, Repr

/-- Rust's `str::split('.')` specialised to `'.'`: the list of separator-free
chunks, with empty chunks kept (`"".split('.')` is `[""]`). -/
def splitOnDot : List Char → List (List Char)
  | [] => [[]]
  | c :: cs =>
    if c = '.' then [] :: splitOnDot cs
    else
      match splitOnDot cs with
      | [] => [[c]]
      | p :: ps => (c :: p) :: ps

/-- The units part of `Amount::from_str` in the dotted branch: empty means 0;
otherwise parse as `u64`, require `u ≤ u64::MAX / 1000`, and scale by 1000. -/
def parseUnits (us : List Char) : Except AmountErr Nat :=
  if us = [] then .ok 0
  else
    match parseU64 us with
    | some u => if u ≤ U64MAX / 1000 then .ok (u * 1000) else .error .unitsTooBig
    | none => .error .invalidUnits

/-- Rounding of the parsed (zero-padded) decimal part to thousandths.
`len` is the length of the padded decimal string and `d` its value.
When `len ≠ 3` the code divides by `10u64.pow(len - 3)`, which wraps
modulo `2 ^ 64`; a wrapped divisor of 0 makes `d % divisor` a Rust
division by zero, i.e. a panic (`none`). -/
def roundDecimals (len d : Nat) : Option Nat :=
  if len = 3 then some d
  else
    let divisor := 10 ^ (len - 3) % U64MOD
    if divisor = 0 then none
    else some (if divisor / 2 ≤ d % divisor then d / divisor + 1 else d / divisor)

/-- The dotted branch of `Amount::from_str` with exactly one separator:
`us` is the units chunk, `ds` the decimals chunk. -/
def parseWithDot (us ds : List Char) : AmountResult :=
  match parseUnits us with
  | .error e => .err e
  | .ok units =>
    if ds = [] then .err .emptyDecimals
    else
      let padded := ds ++ List.replicate (3 - ds.length) '0'
      match parseU64 padded with
      | none => .err .invalidDecimals
      | some d =>
        match roundDecimals padded.length d with
        | none => .fatal
        | some decimals =>
          if units ≤ U64MAX - decimals then .ok ⟨units + decimals⟩
          else .err .sumTooBig

/-- The dot-free branch of `Amount::from_str`. -/
def parseNoDot (s : List Char) : AmountResult :=
  match parseU64 s with
  | some v => if v ≤ U64MAX / 1000 then .ok ⟨v * 1000⟩ else .err .unitsTooBig
  | none => .err .invalidUnits

/-- `<Amount as FromStr>::from_str`. -/
def Amount.from_str (s : List Char) : AmountResult :=
  if ('.') ∈ s then
    match splitOnDot s with
    | [units_str, decimals_str] => parseWithDot units_str decimals_str
    | _ => .err .multipleSeps
  else parseNoDot s

/-- Left-pad a char list with `'0'` to length at least `k`: Rust's `{:0k}`
width specifier on an unsigned integer. -/
def padZeros (k : Nat) (l : List Char) : List Char :=
  List.replicate (k - l.length) '0' ++ l

/-- The "natural" string of `<Amount as Display>::fmt` before width padding:
the match on `f.precision()`. -/
def Amount.natural (a : Amount) (precision : Option Nat) : List Char :=
  let units := a.value / 1000
  let decimal_repr := a.value % 1000
  match precision with
  | none =>
    if decimal_repr = 0 then natChars units
    else if decimal_repr % 100 = 0 then
      natChars units ++ '.' :: padZeros 1 (natChars (decimal_repr / 100))
    else if decimal_repr % 10 = 0 then
      natChars units ++ '.' :: padZeros 2 (natChars (decimal_repr / 10))
    else
      natChars units ++ '.' :: padZeros 3 (natChars decimal_repr)
  | some 0 => natChars (if 500 ≤ decimal_repr then units + 1 else units)
  | some 1 =>
    natChars units ++ '.' ::
      padZeros 1 (natChars
        (if 50 ≤ decimal_repr % 100 then decimal_repr / 100 + 1 else decimal_repr / 100))
  | some 2 =>
    natChars units ++ '.' ::
      padZeros 2 (natChars
        (if 5 ≤ decimal_repr % 10 then decimal_repr / 10 + 1 else decimal_repr / 10))
  | some p =>
    natChars units ++ '.' :: padZeros 3 (natChars decimal_repr) ++
      List.replicate (p - 3) '0'

/-- `<Amount as Display>::fmt`: the natural string followed by the zero
left-padding applied when a minimum width is requested. -/
def Amount.display (a : Amount) (precision width : Option Nat) : List Char :=
  let result := a.natural precision
  match width with
  | none => result
  | some w =>
    if w < result.length then result
    else List.replicate (w - result.length) '0' ++ result

/-! ## Base-58 (the external crate `rust_base58`) -/

/-- The base-58 alphabet. -/
def B58 : List Char :=
  "123456789ABCDEFGHJKLMNPQRSTUVWXYZabcdefghijkmnopqrstuvwxyz".toList

/-- Value of one base-58 character, `none` for a character outside the
alphabet. -/
def b58Val (c : Char) : Option Nat := if c ∈ B58 then some (B58.indexOf c) else none

/-- Character of one base-58 digit (`d < 58`). -/
def b58Char (d : Nat) : Char := B58.getD d '?'

/-- Number of leading copies of `x` at the front of a list. -/
def leadCount [DecidableEq α] (x : α) : List α → Nat
  | [] => 0
  | a :: r => if a = x then leadCount x r + 1 else 0

/-- The list with its leading copies of `x` removed. -/
def dropLead [DecidableEq α] (x : α) : List α → List α
  | [] => []
  | a :: r => if a = x then dropLead x r else a :: r

/-- Scan a base-58 string left to right, converting each character to its
digit value; the first invalid character is reported with its index
(`FromBase58Error::InvalidBase58Byte`). -/
def b58Vals : List Char → Nat → Except (Char × Nat) (List Nat)
  | [], _ => .ok []
  | c :: cs, i =>
    match b58Val c with
    | none => .error (c, i)
    | some d =>
      match b58Vals cs (i + 1) with
      | .error e => .error e
      | .ok ds => .ok (d :: ds)

/-- `rust_base58`'s `FromBase58::from_base58`: one leading zero byte per
leading `'1'`, the rest is the big-endian base-256 representation of the
string's base-58 value. -/
def fromBase58 (s : List Char) : Except (Char × Nat) (List Nat) :=
  match b58Vals s 0 with
  | .error e => .error e
  | .ok ds => .ok (List.replicate (leadCount '1' s) 0 ++ digitsBE 256 (valueBE 58 ds))

/-- `rust_base58`'s `ToBase58::to_base58`: one leading `'1'` per leading
zero byte, the rest is the big-endian base-58 representation of the
bytes' base-256 value. -/
def toBase58 (bytes : List Nat) : List Char :=
  List.replicate (leadCount 0 bytes) '1' ++ (digitsBE 58 (valueBE 256 bytes)).map b58Char

/-! ## The `WalletAddress` type (`src/wallet_address.rs`) -/

/-- `WALLET_ADDRESS_LEN`. -/
def WALLET_ADDRESS_LEN : Nat := 7

/-- `WalletAddress`: 7 raw bytes (`address: [u8; WALLET_ADDRESS_LEN]`),
embedded as a list of byte values. -/
structure WalletAddress where
  address : List Nat
deriving DecidableEq, Repr

/-- `WalletAddress::from_data`: asserts that the first byte is `0x00`
(`none` embeds the `assert_eq!` panic) and stores the bytes unchanged. -/
def WalletAddress.from_data (addr : List Nat) : Option WalletAddress :=
  if addr.head? = some 0 then some ⟨addr⟩ else none

/-- `WalletAddress::get_raw`. -/
def WalletAddress.get_raw (a : WalletAddress) : List Nat := a.address

/-- `impl From<[u8; WALLET_ADDRESS_LEN]> for WalletAddress`: stores the
bytes with no check at all. -/
def WalletAddress.from_array (other : List Nat) : WalletAddress := ⟨other⟩

/-- The 2-byte XOR-chain checksum folded over the address bytes:
`checksum[0] ^= b; checksum[1] ^= checksum[0]` for each byte `b`. -/
def checksum (bytes : List Nat) : Nat × Nat :=
  bytes.foldl (fun acc b => (acc.1 ^^^ b, acc.2 ^^^ (acc.1 ^^^ b))) (0, 0)

/-- The error cases of `WalletAddressParseError`, one per distinct message
built in `<WalletAddress as FromStr>::from_str`. -/
inductive WalletErr
  /-- "the address does not start with \"fr\"" -/
  | missingTag
  /-- "the address is not a valid base-58 encoded string: …", with the
  offending character and its position offset by the tag length -/
  | invalidBase58 (c : Char) (i : Nat)
  /-- "the first byte of the address is not 0x00" -/
  | badFirstByte
  /-- "checksum fail" -/
  | checksumFail
deriving DecidableEq, Repr

/-- Outcome of running `WalletAddress::from_str`: a parsed address, a
recoverable `WalletAddressParseError`, or a Rust panic (`fatal`). -/
inductive WalletResult
  | ok (a : WalletAddress)
  | err (e : WalletErr)
  | fatal
deriving DecidableEq, Repr

/-- The byte slice `&s[0..2]` of a UTF-8 string, as characters: `none` when
the slice panics, i.e. when the string is shorter than 2 bytes or byte
index 2 is not a character boundary. -/
def firstTwoBytes : List Char → Option (List Char)
  | [] => none
  | [c] => if c.utf8Size = 2 then some [c] else none
  | c :: d :: _ =>
    if c.utf8Size = 2 then some [c]
    else if c.utf8Size = 1 then
      if d.utf8Size = 1 then some [c, d] else none
    else none

/-- `<WalletAddress as FromStr>::from_str`.  Every index and slice of the
decoded byte buffer is performed without a length check in the source, so
each out-of-range access is embedded as `fatal`. -/
def WalletAddress.from_str (s : List Char) : WalletResult :=
  match firstTwoBytes s with
  | none => .fatal
  | some tag =>
    if tag ≠ ['f', 'r'] then .err .missingTag
    else
      match fromBase58 (s.drop 2) with
      | .error (c, i) => .err (.invalidBase58 c (i + 2))
      | .ok bytes =>
        match bytes.head? with
        | none => .fatal
        | some b0 =>
          if b0 ≠ 0 then .err .badFirstByte
          else if bytes.length < WALLET_ADDRESS_LEN then .fatal
          else
            let chk := checksum (bytes.take WALLET_ADDRESS_LEN)
            match bytes[WALLET_ADDRESS_LEN]? with
            | none => .fatal
            | some b7 =>
              if chk.1 ≠ b7 then .err .checksumFail
              else
                match bytes[WALLET_ADDRESS_LEN + 1]? with
                | none => .fatal
                | some b8 =>
                  if chk.2 ≠ b8 then .err .checksumFail
                  else
                    match WalletAddress.from_data (bytes.take WALLET_ADDRESS_LEN) with
                    | some a => .ok a
                    | none => .fatal

/-- `<WalletAddress as Display>::fmt`: base-58 encode the 7 address bytes
followed by their freshly computed checksum, prefixed by the tag `"fr"`. -/
def WalletAddress.display (a : WalletAddress) : List Char :=
  'f' :: 'r' :: toBase58 (a.address ++ [(checksum a.address).1, (checksum a.address).2])

/-! ## Lemmas about decimal strings -/

theorem decChar_facts : ∀ d : Nat, d < 10 →
    charToDigit (decChar d) = some d ∧ decChar d ≠ '.' ∧ decChar d ≠ '+' ∧
      decChar d ≠ '-' := by decide

theorem charsToDigits_map_decChar (D : List Nat) (h : ∀ d ∈ D, d < 10) :
    charsToDigits (D.map decChar) = some D := by
  induction D with
  | nil => rfl
  | cons d D ih =>
    rw [List.map_cons, charsToDigits,
      (decChar_facts d (h d (List.mem_cons_self d D))).1,
      ih (fun x hx => h x (List.mem_cons_of_mem d hx))]

theorem decDigits_ne_nil (n : Nat) : decDigits n ≠ [] := by
  unfold decDigits
  by_cases h : n = 0
  · simp [h]
  · rw [if_neg h]
    intro hc
    exact h ((digitsBE_eq_nil_iff 10 n (by norm_num)).mp hc)

theorem decDigits_lt_ten (n : Nat) : ∀ d ∈ decDigits n, d < 10 := by
  unfold decDigits
  by_cases h : n = 0
  · simp [h]
  · rw [if_neg h]
    exact digitsBE_lt_base 10 n (by norm_num)

theorem valueBE_decDigits (n : Nat) : valueBE 10 (decDigits n) = n := by
  unfold decDigits
  by_cases h : n = 0
  · simp [h, valueBE, valueLE]
  · rw [if_neg h]
    exact valueBE_digitsBE 10 n (by norm_num)

theorem decDigits_single (n : Nat) (h : n < 10) : decDigits n = [n] := by
  revert h
  revert n
  decide

theorem decDigits_len_le (n k : Nat) (hk : 1 ≤ k) (h : n < 10 ^ k) :
    (decDigits n).length ≤ k := by
  unfold decDigits
  by_cases h0 : n = 0
  · simpa [h0] using hk
  · rw [if_neg h0, digitsBE, List.length_reverse, digitsLE_eq_digits 10 n (by norm_num),
      Nat.digits_len 10 n (by norm_num) h0]
    have := Nat.log_lt_of_lt_pow h0 h
    omega

theorem natChars_ne_nil (n : Nat) : natChars n ≠ [] := by
  unfold natChars
  simp [decDigits_ne_nil n]

theorem dot_not_mem_natChars (n : Nat) : ('.') ∉ natChars n := by
  unfold natChars
  intro hmem
  obtain ⟨d, hd, hc⟩ := List.mem_map.mp hmem
  exact (decChar_facts d (decDigits_lt_ten n d hd)).2.1 hc

theorem parseU64Digits_map_decChar (D : List Nat) (hne : D ≠ [])
    (h : ∀ d ∈ D, d < 10) :
    parseU64Digits (D.map decChar) =
      if valueBE 10 D ≤ U64MAX then some (valueBE 10 D) else none := by
  obtain ⟨d, D', rfl⟩ := List.exists_cons_of_ne_nil hne
  have h2 := charsToDigits_map_decChar (d :: D') h
  rw [List.map_cons] at h2
  rw [List.map_cons, parseU64Digits, h2]
  intro hc
  exact List.noConfusion hc

theorem parseU64_map_decChar (D : List Nat) (hne : D ≠ [])
    (h : ∀ d ∈ D, d < 10) :
    parseU64 (D.map decChar) =
      if valueBE 10 D ≤ U64MAX then some (valueBE 10 D) else none := by
  obtain ⟨d, D', rfl⟩ := List.exists_cons_of_ne_nil hne
  have hd := decChar_facts d (h d (List.mem_cons_self d D'))
  rw [List.map_cons, parseU64, if_neg (by simpa using hd.2.2.1),
    if_neg (by simpa using hd.2.2.2), ← List.map_cons]
  exact parseU64Digits_map_decChar _ hne h

theorem parseU64_natChars (n : Nat) (h : n ≤ U64MAX) :
    parseU64 (natChars n) = some n := by
  unfold natChars
  rw [parseU64_map_decChar _ (decDigits_ne_nil n) (decDigits_lt_ten n),
    valueBE_decDigits, if_pos h]

/-! ## Lemmas about `splitOnDot` -/

theorem splitOnDot_no_dot (l : List Char) (h : ('.') ∉ l) : splitOnDot l = [l] := by
  induction l with
  | nil => rfl
  | cons c cs ih =>
    have hc : c ≠ '.' := fun hc => h (hc ▸ List.mem_cons_self c cs)
    rw [splitOnDot, if_neg hc, ih (fun hm => h (List.mem_cons_of_mem c hm))]

theorem splitOnDot_append (a b : List Char) (h : ('.') ∉ a) :
    splitOnDot (a ++ '.' :: b) = a :: splitOnDot b := by
  induction a with
  | nil => simp [splitOnDot]
  | cons c cs ih =>
    have hc : c ≠ '.' := fun hc => h (hc ▸ List.mem_cons_self c cs)
    rw [List.cons_append, splitOnDot, if_neg hc,
      ih (fun hm => h (List.mem_cons_of_mem c hm))]

theorem splitOnDot_pair (a b : List Char) (ha : ('.') ∉ a) (hb : ('.') ∉ b) :
    splitOnDot (a ++ '.' :: b) = [a, b] := by
  rw [splitOnDot_append a b ha, splitOnDot_no_dot b hb]

/-! ## The `Amount` round trip -/

theorem padZeros_map_decChar (k : Nat) (D : List Nat) :
    padZeros k (D.map decChar) =
      (List.replicate (k - D.length) 0 ++ D).map decChar := by
  rw [padZeros, List.map_append, List.map_replicate, List.length_map]
  rfl

theorem parseUnits_natChars (u : Nat) (hu : u ≤ U64MAX / 1000) :
    parseUnits (natChars u) = .ok (u * 1000) := by
  rw [parseUnits, if_neg (natChars_ne_nil u)]
  simp [parseU64_natChars u (le_trans hu (Nat.div_le_self _ _)), hu]

theorem parseWithDot_of_digits (u f : Nat) (hu : u ≤ U64MAX / 1000)
    (FD : List Nat) (hne : FD ≠ []) (hlt : ∀ d ∈ FD, d < 10)
    (hlen : FD.length ≤ 3) (hval : valueBE 10 FD * 10 ^ (3 - FD.length) = f)
    (hf : f ≤ 999) (hsum : u * 1000 + f ≤ U64MAX) :
    parseWithDot (natChars u) (FD.map decChar) = .ok ⟨u * 1000 + f⟩ := by
  have hmapne : FD.map decChar ≠ [] := by
    simpa using hne
  have hpad : FD.map decChar ++ List.replicate (3 - (FD.map decChar).length) '0' =
      (FD ++ List.replicate (3 - FD.length) 0).map decChar := by
    rw [List.map_append, List.map_replicate, List.length_map]
    rfl
  have hlt' : ∀ d ∈ FD ++ List.replicate (3 - FD.length) 0, d < 10 := by
    intro d hd
    rcases List.mem_append.mp hd with hd | hd
    · exact hlt d hd
    · rw [List.eq_of_mem_replicate hd]; norm_num
  have hne' : FD ++ List.replicate (3 - FD.length) 0 ≠ [] := by
    intro hc
    exact hne (List.append_eq_nil.mp hc).1
  have hval' : valueBE 10 (FD ++ List.replicate (3 - FD.length) 0) = f := by
    rw [valueBE_append_replicate_zero, hval]
  have hparse : parseU64 ((FD ++ List.replicate (3 - FD.length) 0).map decChar) = some f := by
    rw [parseU64_map_decChar _ hne' hlt', hval', if_pos (by unfold U64MAX; omega)]
  have hplen : ((FD ++ List.replicate (3 - FD.length) 0).map decChar).length = 3 := by
    rw [List.length_map, List.length_append, List.length_replicate]
    omega
  have hround : roundDecimals 3 f = some f := by
    rw [roundDecimals, if_pos rfl]
  simp only [parseWithDot, parseUnits_natChars u hu, if_neg hmapne, hpad,
    hparse, hplen, hround]
  rw [if_pos (by unfold U64MAX at *; omega)]

theorem dot_not_mem_map_decChar (D : List Nat) (h : ∀ d ∈ D, d < 10) :
    ('.') ∉ D.map decChar := by
  intro hmem
  obtain ⟨d, hd, hc⟩ := List.mem_map.mp hmem
  exact (decChar_facts d (h d hd)).2.1 hc

theorem from_str_dotted (us ds : List Char) (hus : ('.') ∉ us) (hds : ('.') ∉ ds) :
    Amount.from_str (us ++ '.' :: ds) = parseWithDot us ds := by
  rw [Amount.from_str, if_pos (by simp), splitOnDot_pair us ds hus hds]

theorem parseNoDot_natChars (u : Nat) (hu : u ≤ U64MAX / 1000) :
    parseNoDot (natChars u) = .ok ⟨u * 1000⟩ := by
  rw [parseNoDot]
  simp [parseU64_natChars u (le_trans hu (Nat.div_le_self _ _)), hu]

/-- **C1.** For every `Amount a` (any `u64` internal value), parsing the
string produced by formatting `a` with no explicit precision and no width
yields exactly `a` again: `parse(format(a, None)) == a`. -/
theorem amount_display_parse_roundtrip (a : Amount) (h : a.value < 2 ^ 64) :
    Amount.from_str (a.display none none) = .ok a := by
  obtain ⟨v⟩ := a
  simp only at h
  have hv : v ≤ U64MAX := by unfold U64MAX; omega
  have hu : v / 1000 ≤ U64MAX / 1000 := Nat.div_le_div_right hv
  have hf : v % 1000 ≤ 999 := by omega
  rw [show Amount.display ⟨v⟩ none none = Amount.natural ⟨v⟩ none from rfl]
  by_cases h0 : v % 1000 = 0
  · have hnat : Amount.natural ⟨v⟩ none = natChars (v / 1000) := by
      simp only [Amount.natural]
      rw [if_pos h0]
    rw [hnat, Amount.from_str, if_neg (dot_not_mem_natChars _), parseNoDot_natChars _ hu]
    have hval : v / 1000 * 1000 = v := by omega
    rw [hval]
  · by_cases h100 : v % 1000 % 100 = 0
    · -- one fractional digit: `frac` is a nonzero multiple of 100
      have hq10 : v % 1000 / 100 < 10 := by omega
      have hnat : Amount.natural ⟨v⟩ none =
          natChars (v / 1000) ++ '.' :: ([v % 1000 / 100].map decChar) := by
        simp only [Amount.natural]
        rw [if_neg h0, if_pos h100]
        simp only [natChars]
        rw [decDigits_single _ hq10]
        simp [padZeros]
      rw [hnat, from_str_dotted _ _ (dot_not_mem_natChars _)
          (dot_not_mem_map_decChar _ (by simpa using hq10)),
        parseWithDot_of_digits (v / 1000) (v % 1000) hu [v % 1000 / 100]
          (by simp) (by simpa using hq10) (by simp)
          (by simp [valueBE, valueLE]; omega) hf (by unfold U64MAX at *; omega)]
      have hval : v / 1000 * 1000 + v % 1000 = v := by omega
      rw [hval]
    · by_cases h10 : v % 1000 % 10 = 0
      · -- two fractional digits: `frac` is a multiple of 10 but not of 100
        have hq100 : v % 1000 / 10 < 10 ^ 2 := by norm_num; omega
        have hlen2 := decDigits_len_le (v % 1000 / 10) 2 (by norm_num) hq100
        have hnat : Amount.natural ⟨v⟩ none =
            natChars (v / 1000) ++ '.' ::
              ((List.replicate (2 - (decDigits (v % 1000 / 10)).length) 0 ++
                decDigits (v % 1000 / 10)).map decChar) := by
          simp only [Amount.natural]
          rw [if_neg h0, if_neg h100, if_pos h10]
          simp only [natChars]
          rw [padZeros_map_decChar]
        rw [hnat, from_str_dotted _ _ (dot_not_mem_natChars _)
            (dot_not_mem_map_decChar _ (by
              intro d hd
              rcases List.mem_append.mp hd with hd | hd
              · rw [List.eq_of_mem_replicate hd]; norm_num
              · exact decDigits_lt_ten _ d hd)),
          parseWithDot_of_digits (v / 1000) (v % 1000) hu _
            (fun hc => decDigits_ne_nil _ (List.append_eq_nil.mp hc).2)
            (by
              intro d hd
              rcases List.mem_append.mp hd with hd | hd
              · rw [List.eq_of_mem_replicate hd]; norm_num
              · exact decDigits_lt_ten _ d hd)
            (by rw [List.length_append, List.length_replicate]; omega)
            (by
              rw [valueBE_replicate_zero_append, valueBE_decDigits,
                List.length_append, List.length_replicate]
              have hexp : 3 - (2 - (decDigits (v % 1000 / 10)).length +
                  (decDigits (v % 1000 / 10)).length) = 1 := by omega
              rw [hexp]
              norm_num
              omega)
            hf (by unfold U64MAX at *; omega)]
        have hval : v / 1000 * 1000 + v % 1000 = v := by omega
        rw [hval]
      · -- three fractional digits
        have hq1000 : v % 1000 < 10 ^ 3 := by norm_num; omega
        have hlen3 := decDigits_len_le (v % 1000) 3 (by norm_num) hq1000
        have hnat : Amount.natural ⟨v⟩ none =
            natChars (v / 1000) ++ '.' ::
              ((List.replicate (3 - (decDigits (v % 1000)).length) 0 ++
                decDigits (v % 1000)).map decChar) := by
          simp only [Amount.natural]
          rw [if_neg h0, if_neg h100, if_neg h10]
          simp only [natChars]
          rw [padZeros_map_decChar]
        rw [hnat, from_str_dotted _ _ (dot_not_mem_natChars _)
            (dot_not_mem_map_decChar _ (by
              intro d hd
              rcases List.mem_append.mp hd with hd | hd
              · rw [List.eq_of_mem_replicate hd]; norm_num
              · exact decDigits_lt_ten _ d hd)),
          parseWithDot_of_digits (v / 1000) (v % 1000) hu _
            (fun hc => decDigits_ne_nil _ (List.append_eq_nil.mp hc).2)
            (by
              intro d hd
              rcases List.mem_append.mp hd with hd | hd
              · rw [List.eq_of_mem_replicate hd]; norm_num
              · exact decDigits_lt_ten _ d hd)
            (by rw [List.length_append, List.length_replicate]; omega)
            (by
              rw [valueBE_replicate_zero_append, valueBE_decDigits,
                List.length_append, List.length_replicate]
              have hexp : 3 - (3 - (decDigits (v % 1000)).length +
                  (decDigits (v % 1000)).length) = 0 := by omega
              rw [hexp]
              norm_num)
            hf (by unfold U64MAX at *; omega)]
        have hval : v / 1000 * 1000 + v % 1000 = v := by omega
        rw [hval]

/-- Witness for C1 at the concrete amount `175.646`. -/
theorem amount_display_parse_roundtrip_witness :
    (175646 : Nat) < 2 ^ 64 ∧
      Amount.from_str (Amount.display ⟨175646⟩ none none) = .ok ⟨175646⟩ :=
  ⟨by norm_num, amount_display_parse_roundtrip ⟨175646⟩ (by norm_num)⟩

/-- **C5.** The fractional rounding of `Amount::from_str` on the spec's
examples, together with the input on which the claimed general rule fails:
for the 23-digit fractional string `"00010000000000000000000"` (value
`10 ^ 19`), the code's divisor `10u64.pow(20)` wraps to
`10 ^ 20 % 2 ^ 64 = 7766279631452241920` and the parse yields 1 thousandth,
while the claimed rule (divide by `10 ^ (len - 3)` and round up iff the
remainder is at least half the divisor) yields 0 thousandths. -/
theorem amount_parse_fraction_rounding :
    Amount.from_str "175.6465".toList = .ok (Amount.from_repr 175647) ∧
    Amount.from_str "175.6464".toList = .ok (Amount.from_repr 175646) ∧
    Amount.from_str "175.6".toList = .ok (Amount.from_repr 175600) ∧
    Amount.from_str ".6465".toList = .ok (Amount.from_repr 647) ∧
    Amount.from_str "0.00010000000000000000000".toList = .ok (Amount.from_repr 1) ∧
    (10 : Nat) ^ (23 - 3) % U64MOD = 7766279631452241920 ∧
    ((10 : Nat) ^ 19 / 10 ^ (23 - 3) = 0 ∧
      ¬ (10 : Nat) ^ (23 - 3) / 2 ≤ (10 : Nat) ^ 19 % 10 ^ (23 - 3)) := by
  refine ⟨by decide, by decide, by decide, by decide, by decide, by decide, ?_, ?_⟩
  · norm_num
  · norm_num

/-- **C6.** The three malformed examples of the spec are rejected with
recoverable errors, but `Amount::from_str` is not abort-free: on
`"0."` followed by 47 zeros and the 20 digits of `u64::MAX` (a 67-digit
fractional part whose value fits `u64`), the divisor `10u64.pow(64)`
wraps to 0 modulo `2 ^ 64` and `d % divisor` is a Rust division by zero,
a panic. -/
theorem amount_parse_error_cases :
    Amount.from_str "175.".toList = .err .emptyDecimals ∧
    Amount.from_str "175.837.9239".toList = .err .multipleSeps ∧
    Amount.from_str ".098320.2930".toList = .err .multipleSeps ∧
    Amount.from_str
        ('0' :: '.' :: (List.replicate 47 '0' ++ "18446744073709551615".toList)) =
      .fatal ∧
    (10 : Nat) ^ (67 - 3) % U64MOD = 0 := by
  refine ⟨by decide, by decide, by decide, by decide, by decide⟩

/-- **C7.** `Amount` formatting with an explicit precision: precision 0
prints the units incremented by 1 iff the thousandths are ≥ 500;
precision 1 prints `frac / 100`, incremented iff `frac % 100 ≥ 50`, padded
to one digit; precision 2 prints `frac / 10`, incremented iff
`frac % 10 ≥ 5`, padded to two digits; precision `p ≥ 3` prints the exact
3-digit fractional value followed by `'0'` until the fractional length is
`p`; and the spec's two examples. -/
theorem amount_format_precision :
    (∀ a : Amount,
      a.display (some 0) none =
        natChars (if 500 ≤ a.value % 1000 then a.value / 1000 + 1 else a.value / 1000) ∧
      a.display (some 1) none =
        natChars (a.value / 1000) ++ '.' ::
          padZeros 1 (natChars
            (if 50 ≤ a.value % 1000 % 100 then a.value % 1000 / 100 + 1
             else a.value % 1000 / 100)) ∧
      a.display (some 2) none =
        natChars (a.value / 1000) ++ '.' ::
          padZeros 2 (natChars
            (if 5 ≤ a.value % 1000 % 10 then a.value % 1000 / 10 + 1
             else a.value % 1000 / 10)) ∧
      ∀ p, 3 ≤ p →
        a.display (some p) none =
          natChars (a.value / 1000) ++ '.' ::
            padZeros 3 (natChars (a.value % 1000)) ++ List.replicate (p - 3) '0') ∧
    Amount.display (Amount.from_repr 56000) (some 2) none = ['5', '6', '.', '0', '0'] ∧
    Amount.display (Amount.from_repr 1500) (some 0) none = ['2'] := by
  refine ⟨fun a => ⟨rfl, rfl, rfl, ?_⟩, by decide, by decide⟩
  intro p hp
  obtain ⟨k, rfl⟩ : ∃ k, p = k + 3 := ⟨p - 3, by omega⟩
  rfl

/-- Witness for C7 at amount `56` (thousandths) and precision 5. -/
theorem amount_format_precision_witness :
    Amount.display ⟨56000⟩ (some 5) none =
      natChars (56000 / 1000) ++ '.' ::
        padZeros 3 (natChars (56000 % 1000)) ++ List.replicate (5 - 3) '0' :=
  (amount_format_precision.1 ⟨56000⟩).2.2.2 5 (by norm_num)

/-- **C8.** `Amount` formatting with a requested minimum width `w`
left-pads the natural string with `'0'` until its total length reaches
`w` and never truncates: if the natural string is already at least `w`
long, the output is the natural string unchanged; and the spec's example
`format(fromScaledInteger(56000), width=5, precision=1) == "056.0"`. -/
theorem amount_format_width_padding :
    (∀ (a : Amount) (p : Option Nat) (w : Nat),
      (w ≤ (a.natural p).length → a.display p (some w) = a.natural p) ∧
      ((a.natural p).length < w →
        a.display p (some w) =
          List.replicate (w - (a.natural p).length) '0' ++ a.natural p)) ∧
    Amount.display (Amount.from_repr 56000) (some 1) (some 5) =
      ['0', '5', '6', '.', '0'] := by
  refine ⟨fun a p w => ⟨?_, ?_⟩, by decide⟩
  · intro hle
    simp only [Amount.display]
    by_cases hlt : w < (a.natural p).length
    · rw [if_pos hlt]
    · rw [if_neg hlt]
      have hz : w - (a.natural p).length = 0 := by omega
      rw [hz]
      simp
  · intro hlt
    simp only [Amount.display]
    rw [if_neg (by omega)]

/-- Witness for C8 at amount `56000`, precision 1, width 5. -/
theorem amount_format_width_padding_witness :
    (Amount.natural ⟨56000⟩ (some 1)).length < 5 →
      Amount.display ⟨56000⟩ (some 1) (some 5) =
        List.replicate (5 - (Amount.natural ⟨56000⟩ (some 1)).length) '0' ++
          Amount.natural ⟨56000⟩ (some 1) :=
  (amount_format_width_padding.1 ⟨56000⟩ (some 1) 5).2

/-- **C9.** The trusted constructor `WalletAddress::from_data` on a 7-byte
array `b` panics (`none`) iff `b[0] ≠ 0x00`, and when `b[0] == 0x00` it
succeeds and stores exactly `b` as the raw storage returned by
`get_raw`. -/
theorem wallet_from_data_contract (b : List Nat) (_hlen : b.length = WALLET_ADDRESS_LEN) :
    (WalletAddress.from_data b = none ↔ ¬ b.head? = some 0) ∧
    (b.head? = some 0 →
      WalletAddress.from_data b = some (WalletAddress.mk b) ∧
        (WalletAddress.mk b).get_raw = b) := by
  constructor
  · unfold WalletAddress.from_data
    by_cases hh : b.head? = some 0 <;> simp [hh]
  · intro hh
    unfold WalletAddress.from_data
    simp [hh, WalletAddress.get_raw]

/-- Witness for C9 at the byte array `[0, 1, 2, 3, 4, 5, 6]`. -/
theorem wallet_from_data_contract_witness :
    ([0, 1, 2, 3, 4, 5, 6] : List Nat).length = WALLET_ADDRESS_LEN ∧
      ((WalletAddress.from_data [0, 1, 2, 3, 4, 5, 6] = none ↔
          ¬ ([0, 1, 2, 3, 4, 5, 6] : List Nat).head? = some 0) ∧
        (([0, 1, 2, 3, 4, 5, 6] : List Nat).head? = some 0 →
          WalletAddress.from_data [0, 1, 2, 3, 4, 5, 6] =
              some (WalletAddress.mk [0, 1, 2, 3, 4, 5, 6]) ∧
            (WalletAddress.mk [0, 1, 2, 3, 4, 5, 6]).get_raw = [0, 1, 2, 3, 4, 5, 6])) :=
  ⟨by decide, wallet_from_data_contract [0, 1, 2, 3, 4, 5, 6] (by decide)⟩

/-- **C10.** The public `From<[u8; 7]>` conversion stores any 7-byte array
unchecked; on `[1, 0, 0, 0, 0, 0, 0]` it silently produces an address
whose first byte is 1, violating the `bytes[0] == 0x00` invariant that
`from_data` asserts (`from_data` panics on the same input). -/
theorem wallet_from_array_unchecked :
    (∀ b : List Nat, WalletAddress.from_array b = WalletAddress.mk b) ∧
    (WalletAddress.from_array [1, 0, 0, 0, 0, 0, 0]).address.head? = some 1 ∧
    ¬ (WalletAddress.from_array [1, 0, 0, 0, 0, 0, 0]).address.head? = some 0 ∧
    WalletAddress.from_data [1, 0, 0, 0, 0, 0, 0] = none :=
  ⟨fun _ => rfl, rfl, by decide, by decide⟩

/-- **C3.** Wallet-address parsing is not abort-free on inputs whose
payload base-58 decodes to fewer than 9 bytes: `"fr"` (empty payload,
decodes to 0 bytes) panics at the unchecked `bytes[0]`, and `"fr1"`
(decodes to the single byte `0x00`) panics at the unchecked slice
`&bytes[..7]`; the source performs no length check at all. -/
theorem wallet_parse_short_decode_aborts :
    fromBase58 ([] : List Char) = .ok [] ∧
    WalletAddress.from_str "fr".toList = .fatal ∧
    fromBase58 ['1'] = .ok [0] ∧
    WalletAddress.from_str "fr1".toList = .fatal := by
  refine ⟨by rfl, by decide, by rfl, by decide⟩

/-! ## Lemmas for the base-58 round trip -/

theorem b58Val_one : b58Val '1' = some 0 := by decide

theorem b58Val_b58Char : ∀ d : Nat, d < 58 → b58Val (b58Char d) = some d := by decide

theorem b58Char_ne_one : ∀ d : Nat, d < 58 → d ≠ 0 → b58Char d ≠ '1' := by decide

theorem lead_decomp [DecidableEq α] (x : α) (l : List α) :
    List.replicate (leadCount x l) x ++ dropLead x l = l := by
  induction l with
  | nil => rfl
  | cons a r ih =>
    by_cases ha : a = x
    · subst ha
      simp [leadCount, dropLead, List.replicate_succ, ih]
    · simp only [leadCount, dropLead, if_neg ha, List.replicate_zero, List.nil_append]

theorem dropLead_head_ne [DecidableEq α] (x : α) (l : List α) :
    ∀ d, (dropLead x l).head? = some d → d ≠ x := by
  induction l with
  | nil => intro d hd; simp [dropLead] at hd
  | cons a r ih =>
    intro d hd
    by_cases ha : a = x
    · subst ha
      rw [dropLead, if_pos rfl] at hd
      exact ih d hd
    · rw [dropLead, if_neg ha] at hd
      simp at hd
      rw [← hd]
      exact ha

theorem leadCount_eq_zero [DecidableEq α] (x : α) (l : List α)
    (h : ∀ d, l.head? = some d → d ≠ x) : leadCount x l = 0 := by
  cases l with
  | nil => rfl
  | cons a r =>
    rw [leadCount, if_neg (h a rfl)]

theorem leadCount_replicate_append [DecidableEq α] (x : α) (z : Nat) (r : List α) :
    leadCount x (List.replicate z x ++ r) = z + leadCount x r := by
  induction z with
  | zero => simp
  | succ z ih =>
    rw [List.replicate_succ, List.cons_append, leadCount, if_pos rfl, ih]
    omega

theorem b58Vals_replicate_one_ok (z : Nat) (r : List Char) (i : Nat) (ds : List Nat)
    (h : b58Vals r (i + z) = .ok ds) :
    b58Vals (List.replicate z '1' ++ r) i = .ok (List.replicate z 0 ++ ds) := by
  induction z generalizing i with
  | zero => simpa using h
  | succ z ih =>
    have h' : b58Vals r (i + 1 + z) = .ok ds := by
      rw [show i + 1 + z = i + (z + 1) from by omega]
      exact h
    rw [List.replicate_succ, List.cons_append]
    simp only [b58Vals, b58Val_one, ih (i + 1) h']
    rw [List.replicate_succ, List.cons_append]

theorem b58Vals_map_b58Char (D : List Nat) (h : ∀ d ∈ D, d < 58) :
    ∀ i, b58Vals (D.map b58Char) i = .ok D := by
  induction D with
  | nil => intro i; rfl
  | cons d D' ih =>
    intro i
    simp only [List.map_cons, b58Vals, b58Val_b58Char d (h d (List.mem_cons_self d D')),
      ih (fun x hx => h x (List.mem_cons_of_mem d hx)) (i + 1)]

/-- Decoding inverts encoding for any byte list. -/
theorem fromBase58_toBase58 (l : List Nat) (h : ∀ x ∈ l, x < 256) :
    fromBase58 (toBase58 l) = .ok l := by
  have hdecomp := lead_decomp 0 l
  have hmhead := dropLead_head_ne 0 l
  have hmlt : ∀ x ∈ dropLead 0 l, x < 256 := by
    intro x hx
    apply h
    rw [← hdecomp]
    exact List.mem_append_right _ hx
  have hval : valueBE 256 l = valueBE 256 (dropLead 0 l) := by
    conv_lhs => rw [← hdecomp]
    rw [valueBE_replicate_zero_append]
  have hDlt := digitsBE_lt_base 58 (valueBE 256 l) (by norm_num)
  have hDhead : ∀ d, (digitsBE 58 (valueBE 256 l)).head? = some d → d ≠ 0 := by
    by_cases h0 : valueBE 256 l = 0
    · intro d hd
      rw [h0] at hd
      simp [digitsBE, digitsLE, digitsLEAux] at hd
    · exact digitsBE_head_ne_zero 58 _ (by norm_num) h0
  have hmapHead : ∀ c, ((digitsBE 58 (valueBE 256 l)).map b58Char).head? = some c →
      c ≠ '1' := by
    intro c hc
    cases hD : digitsBE 58 (valueBE 256 l) with
    | nil => rw [hD] at hc; simp at hc
    | cons d D' =>
      rw [hD] at hc
      simp at hc
      rw [← hc]
      refine b58Char_ne_one d (hDlt d ?_) (hDhead d ?_)
      · rw [hD]
        exact List.mem_cons_self _ _
      · rw [hD]
        rfl
  have hvals : b58Vals (List.replicate (leadCount 0 l) '1' ++
      (digitsBE 58 (valueBE 256 l)).map b58Char) 0 =
        .ok (List.replicate (leadCount 0 l) 0 ++ digitsBE 58 (valueBE 256 l)) :=
    b58Vals_replicate_one_ok _ _ 0 _ (b58Vals_map_b58Char _ hDlt _)
  have hleadenc : leadCount '1' (List.replicate (leadCount 0 l) '1' ++
      (digitsBE 58 (valueBE 256 l)).map b58Char) = leadCount 0 l := by
    rw [leadCount_replicate_append, leadCount_eq_zero '1' _ hmapHead]
    omega
  rw [toBase58]
  simp only [fromBase58, hvals, hleadenc]
  rw [valueBE_replicate_zero_append, valueBE_digitsBE 58 _ (by norm_num), hval,
    digitsBE_valueBE 256 (by norm_num) _ hmlt hmhead, hdecomp]

theorem xor_lt_256 (x y : Nat) (hx : x < 256) (hy : y < 256) : x ^^^ y < 256 := by
  have h8 : (256 : Nat) = 2 ^ 8 := by norm_num
  rw [h8] at *
  exact Nat.xor_lt_two_pow hx hy

theorem checksum_foldl_lt (l : List Nat) (h : ∀ x ∈ l, x < 256) :
    ∀ acc : Nat × Nat, acc.1 < 256 → acc.2 < 256 →
      (l.foldl (fun acc b => (acc.1 ^^^ b, acc.2 ^^^ (acc.1 ^^^ b))) acc).1 < 256 ∧
        (l.foldl (fun acc b => (acc.1 ^^^ b, acc.2 ^^^ (acc.1 ^^^ b))) acc).2 < 256 := by
  induction l with
  | nil => intro acc h1 h2; exact ⟨h1, h2⟩
  | cons a r ih =>
    intro acc h1 h2
    have ha : a < 256 := h a (List.mem_cons_self _ _)
    rw [List.foldl_cons]
    exact ih (fun x hx => h x (List.mem_cons_of_mem _ hx)) _
      (xor_lt_256 _ _ h1 ha) (xor_lt_256 _ _ h2 (xor_lt_256 _ _ h1 ha))

theorem checksum_lt (l : List Nat) (h : ∀ x ∈ l, x < 256) :
    (checksum l).1 < 256 ∧ (checksum l).2 < 256 := by
  unfold checksum
  exact checksum_foldl_lt l h (0, 0) (by norm_num) (by norm_num)

theorem firstTwoBytes_fr (l : List Char) :
    firstTwoBytes ('f' :: 'r' :: l) = some ['f', 'r'] := by
  have h1 : ('f').utf8Size = 1 := by decide
  have h2 : ('r').utf8Size = 1 := by decide
  simp [firstTwoBytes, h1, h2]

/-- **C2.** For every 7-byte array `b` with `b[0] == 0x00`, the text
encoding of the wallet address built from `b` (the tag `"fr"` followed
by the base-58 encoding of the 7 bytes concatenated with their 2-byte
XOR-chain checksum) parses back successfully to an address equal to the
original: `parse(toString(fromRawBytes(b))) == fromRawBytes(b)`. -/
theorem wallet_display_parse_roundtrip (b : List Nat)
    (hlen : b.length = WALLET_ADDRESS_LEN) (hbytes : ∀ x ∈ b, x < 256)
    (hhead : b.head? = some 0) :
    WalletAddress.from_data b = some (WalletAddress.mk b) ∧
      WalletAddress.from_str (WalletAddress.mk b).display =
        .ok (WalletAddress.mk b) := by
  have hfd : WalletAddress.from_data b = some (WalletAddress.mk b) := by
    unfold WalletAddress.from_data
    rw [if_pos hhead]
  refine ⟨hfd, ?_⟩
  have hlen7 : b.length = 7 := hlen
  have hchk := checksum_lt b hbytes
  have harr : ∀ x ∈ b ++ [(checksum b).1, (checksum b).2], x < 256 := by
    intro x hx
    rcases List.mem_append.mp hx with hx | hx
    · exact hbytes x hx
    · have hx2 : x = (checksum b).1 ∨ x = (checksum b).2 := by simpa using hx
      rcases hx2 with rfl | rfl
      · exact hchk.1
      · exact hchk.2
  have hdec : fromBase58 (toBase58 (b ++ [(checksum b).1, (checksum b).2])) =
      .ok (b ++ [(checksum b).1, (checksum b).2]) := fromBase58_toBase58 _ harr
  have hbne : b ≠ [] := by
    intro hc
    rw [hc] at hlen7
    exact absurd hlen7 (by norm_num)
  have hheadarr : (b ++ [(checksum b).1, (checksum b).2]).head? = some 0 := by
    rw [List.head?_append_of_ne_nil _ hbne, hhead]
  have hlenarr : (b ++ [(checksum b).1, (checksum b).2]).length = 9 := by
    rw [List.length_append, hlen7]
    rfl
  have htake : (b ++ [(checksum b).1, (checksum b).2]).take 7 = b := by
    rw [show (7 : Nat) = b.length from hlen7.symm, List.take_left]
  have hget7 : (b ++ [(checksum b).1, (checksum b).2])[(7 : Nat)]? =
      some (checksum b).1 := by
    rw [List.getElem?_append_right (by omega), hlen7]
    rfl
  have hget8 : (b ++ [(checksum b).1, (checksum b).2])[(8 : Nat)]? =
      some (checksum b).2 := by
    rw [List.getElem?_append_right (by omega), hlen7]
    rfl
  simp only [WalletAddress.display, WalletAddress.from_str, firstTwoBytes_fr,
    ne_eq, not_true_eq_false, if_false, List.drop_succ_cons, List.drop_zero,
    WALLET_ADDRESS_LEN, hdec, hheadarr, hlenarr, htake, hget7, hget8, hfd]
  norm_num

/-- Witness for C2 at the crate documentation's example address bytes
`[0x00, 0x11, 0x2A, 0x44, 0xCD, 0xFF, 0xE0]`. -/
theorem wallet_display_parse_roundtrip_witness :
    (([0, 17, 42, 68, 205, 255, 224] : List Nat).length = WALLET_ADDRESS_LEN ∧
      (∀ x ∈ ([0, 17, 42, 68, 205, 255, 224] : List Nat), x < 256) ∧
      ([0, 17, 42, 68, 205, 255, 224] : List Nat).head? = some 0) ∧
      (WalletAddress.from_data [0, 17, 42, 68, 205, 255, 224] =
          some (WalletAddress.mk [0, 17, 42, 68, 205, 255, 224]) ∧
        WalletAddress.from_str
            (WalletAddress.mk [0, 17, 42, 68, 205, 255, 224]).display =
          .ok (WalletAddress.mk [0, 17, 42, 68, 205, 255, 224])) :=
  ⟨⟨by decide, by decide, by decide⟩,
    wallet_display_parse_roundtrip _ (by decide) (by decide) (by decide)⟩

/-- **C4.** Wallet-address parsing is not abort-free on strings shorter
than two bytes: the byte slice `&s[0..2]` panics on `""` and on `"f"`;
two-byte strings that do not start with `"fr"` do produce the recoverable
missing-tag error. -/
theorem wallet_parse_missing_tag_aborts :
    WalletAddress.from_str "".toList = .fatal ∧
    WalletAddress.from_str "f".toList = .fatal ∧
    WalletAddress.from_str "ab".toList = .err .missingTag := by
  refine ⟨by decide, by decide, by decide⟩

end Fractal
